import Mathlib

/-
Verification of the sparse-tensor coordinate-remapping kernel
(python/tvm/topi/sparse_reshape.py, function sparse_reshape / gen_ir).

The generated IR is a first-order imperative program over integer buffers.
We embed it shallowly: buffers become lists of Int, the sequential loops
become folds / structural recursions computing the same values, and the
per-row parallel loops become List.map (each row only reads shared
read-only tables and its own input row, so the map is the exact
denotation of the parallel loop).

Machine-width semantics: the IR performs all intermediate arithmetic in
the declared dtype of the new_shape buffer and casts the final
coordinates to the dtype of sparse_indices.  The exact-width model
(gen_ir below) uses unbounded Int; the machine model (gen_irW) wraps
every arithmetic result into a signed w-bit range, exactly like a
twos-complement dtype of width w would.

TVM operator correspondence: te.div on integers truncates toward zero
(Int.tdiv), floordiv / floormod are Int.fdiv / Int.fmod.
-/

namespace SparseReshape

/-- Total element count of the previous shape: the value held in
total_ele[0] after the stride loop (sparse_reshape.py lines 104-114).
The loop multiplies prev_shape[0] and then prev_shape[n-1] ... prev_shape[1];
by commutativity this is the product of all entries. -/
def total_ele (shape : List Int) : Int := shape.prod

/-- Row-major stride table: multipliers[k] is the product of all entries of
the shape strictly to the right of position k, with multipliers[n-1] = 1
(sparse_reshape.py lines 107-113; the same recurrence builds the dividers
table over the resolved shape, lines 152-157). -/
def multipliers : List Int → List Int
  | [] => []
  | _ :: s => s.prod :: multipliers s

/-- Product of the new_shape entries that are not the sentinel -1, the value
division_total_ele[0] (sparse_reshape.py lines 116-122); the empty product
is 1. -/
def division_total_ele (newShape : List Int) : Int :=
  (newShape.filter (fun d => d != -1)).prod

/-- The resolved output shape written into out_new_shape
(sparse_reshape.py lines 124-131): every entry equal to -1 is replaced by
div(total_ele, division_total_ele) with truncating division (te.div), every
other entry is copied verbatim. -/
def out_new_shape (prevShape newShape : List Int) : List Int :=
  newShape.map (fun d =>
    if d = -1 then Int.tdiv (total_ele prevShape) (division_total_ele newShape) else d)

/-- Row-major linear offset of one coordinate row: the value accumulated in
flattened_indices[i] by the loop at sparse_reshape.py lines 159-162,
namely the dot product of the row with the multipliers table. -/
def flattened_index (row mult : List Int) : Int :=
  (row.zip mult).foldl (fun acc p => acc + p.1 * p.2) 0

/-- Unflattening of a linear offset into coordinates of the resolved shape:
the loop at sparse_reshape.py lines 164-174.  For each divider d (most
significant first) it emits floordiv(current, d) and carries
floormod(current, d) forward. -/
def unflatten_row : List Int → Int → List Int
  | [], _ => []
  | d :: ds, cur => Int.fdiv cur d :: unflatten_row ds (Int.fmod cur d)

/-- The general (non-shortcut) path of the kernel, sparse_reshape.py lines
150-174: every row is flattened against the multipliers of the previous
shape and unflattened against the dividers of the resolved shape. -/
def transcode (prevShape resolved : List Int) (rows : List (List Int)) :
    List (List Int) :=
  rows.map (fun r =>
    unflatten_row (multipliers resolved) (flattened_index r (multipliers prevShape)))

/-- Denotation of the IR built by gen_ir (sparse_reshape.py lines 71-176):
resolve the output shape, compare it entrywise with the previous shape
(equal_shape, lines 133-142), and either copy the coordinate rows verbatim
(lines 144-148) or transcode them (lines 150-174).  The resolved shape is
always written to the shape output. -/
def gen_ir (sparse_indices : List (List Int)) (prev_shape new_shape : List Int) :
    List (List Int) × List Int :=
  let resolved := out_new_shape prev_shape new_shape
  if prev_shape = resolved then (sparse_indices, resolved)
  else (transcode prev_shape resolved sparse_indices, resolved)

/-- The public operator sparse_reshape (sparse_reshape.py lines 23-190) is an
external wrapper that allocates the two output buffers and runs gen_ir once. -/
def sparse_reshape (sparse_indices : List (List Int))
    (prev_shape new_shape : List Int) : List (List Int) × List Int :=
  gen_ir sparse_indices prev_shape new_shape

/-- Error-aware view of one kernel invocation.  The generated IR contains no
validation, no assertion and no error branch of any kind: every invocation
runs to completion and writes both outputs.  Wrapping the result in Except
makes claims about raised errors statable; faithfully to the source, the
result is always Except.ok. -/
def sparse_reshape_run (sparse_indices : List (List Int))
    (prev_shape new_shape : List Int) :
    Except String (List (List Int) × List Int) :=
  Except.ok (gen_ir sparse_indices prev_shape new_shape)

/-- Bounds predicate on one coordinate row: the row has the same width as the
shape and every coordinate x satisfies 0 ≤ x < d for its dimension size d.
This is a precondition of several spec claims; the kernel itself never
checks it. -/
def in_bounds : List Int → List Int → Bool
  | [], [] => true
  | d :: s, x :: r => decide (0 ≤ x) && decide (x < d) && in_bounds s r
  | _, _ => false

/-- Signed twos-complement wrap of an integer into width w: the value a
machine register of w bits holds after an arithmetic operation. -/
def wrapI (w : Nat) (x : Int) : Int :=
  (x + 2 ^ (w - 1)) % 2 ^ w - 2 ^ (w - 1)

/-- Machine-width total_ele: the IR accumulates the product in the dtype of
new_shape (width w), wrapping at every multiplication
(sparse_reshape.py lines 104-114). -/
def total_eleW (w : Nat) (shape : List Int) : Int :=
  shape.foldl (fun a b => wrapI w (a * b)) 1

/-- Machine-width multipliers table: each entry is the wrapped product of the
next shape entry with the previous multiplier (sparse_reshape.py lines
107-113 and 152-157); the least significant multiplier is the constant 1. -/
def multipliersW (w : Nat) : List Int → List Int
  | [] => []
  | [_] => [1]
  | _ :: b :: s =>
      let rest := multipliersW w (b :: s)
      wrapI w (b * rest.headI) :: rest

/-- Machine-width division_total_ele (sparse_reshape.py lines 116-122). -/
def division_total_eleW (w : Nat) (newShape : List Int) : Int :=
  newShape.foldl (fun a b => if b = -1 then a else wrapI w (a * b)) 1

/-- Machine-width resolved shape (sparse_reshape.py lines 124-131): the
sentinel entries receive Cast(dtype, div(total_ele, division_total_ele)),
the other entries are copied verbatim from the new_shape buffer. -/
def out_new_shapeW (w : Nat) (prevShape newShape : List Int) : List Int :=
  newShape.map (fun d =>
    if d = -1 then
      wrapI w (Int.tdiv (total_eleW w prevShape) (division_total_eleW w newShape))
    else d)

/-- Machine-width row flattening (sparse_reshape.py lines 159-162): the dot
product is accumulated in the new_shape dtype, wrapping after each
multiplication and each addition. -/
def flattened_indexW (w : Nat) (row mult : List Int) : Int :=
  (row.zip mult).foldl (fun acc p => wrapI w (acc + wrapI w (p.1 * p.2))) 0

/-- Machine-width unflattening (sparse_reshape.py lines 164-174): the carried
remainder lives in the new_shape dtype (width w); each emitted coordinate is
cast to the dtype of sparse_indices (width wOut). -/
def unflatten_rowW (w wOut : Nat) : List Int → Int → List Int
  | [], _ => []
  | d :: ds, cur =>
      wrapI wOut (Int.fdiv cur d) :: unflatten_rowW w wOut ds (wrapI w (Int.fmod cur d))

/-- Machine-width general path (sparse_reshape.py lines 150-174): every row
is flattened and unflattened in the declared dtype of new_shape (width w),
with each final coordinate cast to the dtype of sparse_indices (width
wOut). -/
def transcodeW (w wOut : Nat) (prevShape resolved : List Int)
    (rows : List (List Int)) : List (List Int) :=
  rows.map (fun r =>
    unflatten_rowW w wOut (multipliersW w resolved)
      (flattened_indexW w r (multipliersW w prevShape)))

/-- Machine-width denotation of the kernel: identical control flow to gen_ir,
with every intermediate arithmetic operation performed in the declared
dtype of new_shape (width w) and the final coordinates cast to the dtype of
sparse_indices (width wOut). -/
def gen_irW (w wOut : Nat) (sparse_indices : List (List Int))
    (prev_shape new_shape : List Int) : List (List Int) × List Int :=
  let resolved := out_new_shapeW w prev_shape new_shape
  if prev_shape = resolved then (sparse_indices, resolved)
  else (transcodeW w wOut prev_shape resolved sparse_indices, resolved)

/-! ### Arithmetic facts about the exact-width model -/

theorem prod_pos_of_one_le {s : List Int} (h : ∀ d ∈ s, 1 ≤ d) : 0 < s.prod :=
  List.prod_pos fun a ha => lt_of_lt_of_le zero_lt_one (h a ha)

theorem flattened_foldl_init (l : List (Int × Int)) (a : Int) :
    l.foldl (fun acc p => acc + p.1 * p.2) a
      = a + l.foldl (fun acc p => acc + p.1 * p.2) 0 := by
  induction l generalizing a with
  | nil => simp
  | cons p l ih =>
    simp only [List.foldl_cons]
    rw [ih (a + p.1 * p.2), ih (0 + p.1 * p.2)]
    ring

theorem flattened_index_cons (x m : Int) (r ms : List Int) :
    flattened_index (x :: r) (m :: ms) = x * m + flattened_index r ms := by
  unfold flattened_index
  rw [List.zip_cons_cons, List.foldl_cons, flattened_foldl_init]
  ring

theorem multipliers_mem_bounds {s : List Int} (hs : ∀ d ∈ s, 1 ≤ d) :
    ∀ m ∈ multipliers s, 1 ≤ m ∧ m ≤ total_ele s := by
  induction s with
  | nil => simp [multipliers]
  | cons a s ih =>
    intro m hm
    have h1 : 1 ≤ a := hs a (List.mem_cons_self _ _)
    have hs' : ∀ d ∈ s, 1 ≤ d := fun d hd => hs d (List.mem_cons_of_mem _ hd)
    have hP : 0 < s.prod := prod_pos_of_one_le hs'
    simp only [multipliers, List.mem_cons] at hm
    rcases hm with rfl | hm
    · refine ⟨by omega, ?_⟩
      simp only [total_ele, List.prod_cons]
      nlinarith
    · obtain ⟨hm1, hm2⟩ := ih hs' m hm
      refine ⟨hm1, ?_⟩
      simp only [total_ele, List.prod_cons] at hm2 ⊢
      nlinarith

theorem flattened_index_bounds {s : List Int} (hs : ∀ d ∈ s, 1 ≤ d) :
    ∀ {r : List Int}, in_bounds s r = true →
      0 ≤ flattened_index r (multipliers s) ∧
        flattened_index r (multipliers s) < total_ele s := by
  induction s with
  | nil =>
    intro r hb
    cases r with
    | nil => simp [flattened_index, total_ele, multipliers]
    | cons x r => simp [in_bounds] at hb
  | cons a s ih =>
    intro r hb
    cases r with
    | nil => simp [in_bounds] at hb
    | cons x r =>
      simp only [in_bounds, Bool.and_eq_true, decide_eq_true_eq] at hb
      obtain ⟨⟨hx0, hxa⟩, hb⟩ := hb
      have hs' : ∀ d ∈ s, 1 ≤ d := fun d hd => hs d (List.mem_cons_of_mem _ hd)
      obtain ⟨ih0, ih1⟩ := ih hs' hb
      have hP : 0 < s.prod := prod_pos_of_one_le hs'
      simp only [multipliers, total_ele, List.prod_cons] at *
      rw [flattened_index_cons]
      constructor
      · nlinarith
      · nlinarith [mul_le_mul_of_nonneg_right (show x + 1 ≤ a by omega) hP.le]

theorem flattened_unflatten (s : List Int) (hs : ∀ d ∈ s, 1 ≤ d) (hne : s ≠ []) :
    ∀ o : Int,
      flattened_index (unflatten_row (multipliers s) o) (multipliers s) = o := by
  induction s with
  | nil => exact absurd rfl hne
  | cons a s ih =>
    intro o
    cases s with
    | nil =>
      simp only [multipliers, List.prod_nil, unflatten_row]
      rw [flattened_index_cons]
      have : Int.fdiv o 1 = o := by
        rw [Int.fdiv_eq_ediv _ (by omega)]
        exact Int.ediv_one o
      simp [this, flattened_index]
    | cons b s' =>
      have hs' : ∀ d ∈ (b :: s'), 1 ≤ d := fun d hd => hs d (List.mem_cons_of_mem _ hd)
      have hP : 0 < (b :: s').prod := prod_pos_of_one_le hs'
      have hm : multipliers (a :: b :: s') = (b :: s').prod :: multipliers (b :: s') := rfl
      rw [hm, unflatten_row, flattened_index_cons, ih hs' (by simp) (Int.fmod o ((b :: s').prod))]
      have := Int.fdiv_add_fmod o ((b :: s').prod)
      linarith [this, mul_comm ((b :: s').prod) (Int.fdiv o ((b :: s').prod))]

theorem unflatten_flattened {s : List Int} (hs : ∀ d ∈ s, 1 ≤ d) :
    ∀ {r : List Int}, in_bounds s r = true →
      unflatten_row (multipliers s) (flattened_index r (multipliers s)) = r := by
  induction s with
  | nil =>
    intro r hb
    cases r with
    | nil => simp [multipliers, unflatten_row]
    | cons x r => simp [in_bounds] at hb
  | cons a s ih =>
    intro r hb
    cases r with
    | nil => simp [in_bounds] at hb
    | cons x r =>
      simp only [in_bounds, Bool.and_eq_true, decide_eq_true_eq] at hb
      obtain ⟨⟨hx0, hxa⟩, hb⟩ := hb
      have hs' : ∀ d ∈ s, 1 ≤ d := fun d hd => hs d (List.mem_cons_of_mem _ hd)
      obtain ⟨hf0, hf1⟩ := flattened_index_bounds hs' hb
      have hf1' : flattened_index r (multipliers s) < s.prod := hf1
      have hP : 0 < s.prod := prod_pos_of_one_le hs'
      simp only [multipliers]
      rw [flattened_index_cons, unflatten_row]
      have harg : x * s.prod + flattened_index r (multipliers s)
          = flattened_index r (multipliers s) + x * s.prod := by ring
      have hdiv : Int.fdiv (x * s.prod + flattened_index r (multipliers s)) s.prod = x := by
        rw [Int.fdiv_eq_ediv _ hP.le, harg,
          Int.add_mul_ediv_right _ _ (ne_of_gt hP),
          Int.ediv_eq_zero_of_lt hf0 hf1']
        ring
      have hmod : Int.fmod (x * s.prod + flattened_index r (multipliers s)) s.prod
          = flattened_index r (multipliers s) := by
        rw [Int.fmod_eq_emod _ hP.le, harg, Int.add_mul_emod_self,
          Int.emod_eq_of_lt hf0 hf1']
      rw [hdiv, hmod, ih hs' hb]

/-! ### Shape resolution facts -/

theorem filter_of_not_mem {l : List Int} (h : (-1 : Int) ∉ l) :
    l.filter (fun d => d != -1) = l := by
  induction l with
  | nil => rfl
  | cons a l ih =>
    have ha : a ≠ -1 := fun h' => h (h' ▸ List.mem_cons_self _ _)
    have hl : (-1 : Int) ∉ l := fun h' => h (List.mem_cons_of_mem _ h')
    simp [List.filter_cons, bne_iff_ne, ha, ih hl]

theorem map_replace_of_not_mem {l : List Int} (v : Int) (h : (-1 : Int) ∉ l) :
    l.map (fun d => if d = -1 then v else d) = l := by
  induction l with
  | nil => rfl
  | cons a l ih =>
    have ha : a ≠ -1 := fun h' => h (h' ▸ List.mem_cons_self _ _)
    have hl : (-1 : Int) ∉ l := fun h' => h (List.mem_cons_of_mem _ h')
    simp [ha, ih hl]

theorem out_new_shape_of_not_mem {prev nw : List Int} (h : (-1 : Int) ∉ nw) :
    out_new_shape prev nw = nw :=
  map_replace_of_not_mem _ h

theorem prod_map_replace_one_sentinel {l : List Int} (v : Int)
    (h : l.count (-1) = 1) :
    (l.map (fun d => if d = -1 then v else d)).prod
      = v * (l.filter (fun d => d != -1)).prod := by
  induction l with
  | nil => simp at h
  | cons a l ih =>
    by_cases ha : a = -1
    · subst ha
      have h0 : l.count (-1) = 0 := by
        simp [List.count_cons] at h
        omega
      have hnm : (-1 : Int) ∉ l := List.count_eq_zero.mp h0
      simp only [List.map_cons, if_pos rfl, List.prod_cons, List.filter_cons]
      rw [map_replace_of_not_mem v hnm, filter_of_not_mem hnm]
      simp
    · have h' : l.count (-1) = 1 := by
        simp [List.count_cons, ha] at h
        omega
      simp only [List.map_cons, if_neg ha, List.prod_cons, List.filter_cons]
      have hne : (a != -1) = true := bne_iff_ne.mpr ha
      rw [hne, ih h']
      simp
      ring

theorem division_total_ele_pos {nw : List Int}
    (hpos : ∀ d ∈ nw, d = -1 ∨ 1 ≤ d) : 0 < division_total_ele nw := by
  apply List.prod_pos
  intro a ha
  obtain ⟨hmem, hne⟩ := List.mem_filter.mp ha
  rcases hpos a hmem with h | h
  · exact absurd h (bne_iff_ne.mp hne)
  · omega

theorem out_new_shape_pos {prev nw : List Int} (hp : ∀ d ∈ prev, 1 ≤ d)
    (hpos : ∀ d ∈ nw, d = -1 ∨ 1 ≤ d)
    (hdvd : (-1 : Int) ∈ nw → division_total_ele nw ∣ total_ele prev) :
    ∀ d ∈ out_new_shape prev nw, 1 ≤ d := by
  intro d hd
  unfold out_new_shape at hd
  obtain ⟨e, he, rfl⟩ := List.mem_map.mp hd
  by_cases h : e = -1
  · rw [if_pos h]
    obtain ⟨q, hq⟩ := hdvd (h ▸ he)
    have hk : 0 < division_total_ele nw := division_total_ele_pos hpos
    have ht : 0 < total_ele prev := prod_pos_of_one_le hp
    rw [hq, Int.mul_tdiv_cancel_left _ (ne_of_gt hk)]
    by_contra hq1
    push_neg at hq1
    have hqle : q ≤ 0 := by omega
    nlinarith
  · rw [if_neg h]
    rcases hpos e he with h' | h'
    · exact absurd h' h
    · exact h'

theorem out_new_shape_prod {prev nw : List Int} (hp : ∀ d ∈ prev, 1 ≤ d)
    (hone : nw.count (-1) = 1)
    (hdvd : division_total_ele nw ∣ total_ele prev) :
    total_ele (out_new_shape prev nw) = total_ele prev := by
  obtain ⟨q, hq⟩ := hdvd
  have ht : 0 < total_ele prev := prod_pos_of_one_le hp
  have hk : division_total_ele nw ≠ 0 := by
    intro h0
    rw [h0, zero_mul] at hq
    omega
  have hdiv : Int.tdiv (total_ele prev) (division_total_ele nw) = q := by
    rw [hq, Int.mul_tdiv_cancel_left _ hk]
  show (nw.map (fun d =>
      if d = -1 then Int.tdiv (total_ele prev) (division_total_ele nw) else d)).prod
    = total_ele prev
  rw [prod_map_replace_one_sentinel _ hone, hdiv]
  have hq' : total_ele prev = (nw.filter (fun d => d != -1)).prod * q := hq
  rw [hq']
  ring

/-! ### Control-flow reformulation of the kernel -/

theorem gen_ir_eq (ind : List (List Int)) (prev nw : List Int) :
    gen_ir ind prev nw =
      if prev = out_new_shape prev nw then (ind, out_new_shape prev nw)
      else (transcode prev (out_new_shape prev nw) ind, out_new_shape prev nw) := rfl

theorem gen_ir_snd (ind : List (List Int)) (prev nw : List Int) :
    (gen_ir ind prev nw).2 = out_new_shape prev nw := by
  rw [gen_ir_eq]
  split <;> rfl

theorem gen_ir_fst_length (ind : List (List Int)) (prev nw : List Int) :
    (gen_ir ind prev nw).1.length = ind.length := by
  rw [gen_ir_eq]
  split
  · rfl
  · simp [transcode]

theorem getD_map_lt (f : Int → Int) (l : List Int) (i : Nat) (hi : i < l.length) :
    (l.map f).getD i 0 = f (l.getD i 0) := by
  induction l generalizing i with
  | nil => simp at hi
  | cons a l ih =>
    cases i with
    | zero => simp
    | succ n =>
      simp only [List.map_cons, List.getD_cons_succ]
      exact ih n (by simpa using hi)

/-! ### Claims settled against the exact-width model -/

/-- C3 counterexample: new_shape = [5, -1, -1] has two sentinels (and 24 is
not divisible by 5), yet the kernel raises nothing and writes both outputs:
the run returns ok with resolved shape [5, 4, 4] and a fully written
coordinate matrix. -/
theorem claim_C3_counterexample :
    sparse_reshape_run [[0, 0, 0]] [2, 3, 4] [5, -1, -1] =
      Except.ok ([[0, 0, 0]], [5, 4, 4]) := by
  unfold sparse_reshape_run
  exact congrArg Except.ok (by decide)

/-- C3 amended: on inputs with more than one sentinel, or with a sentinel
whose known product does not divide the total element count, the kernel
performs no validation and reports no error: the invocation completes,
writing the resolved shape (each sentinel position holding the truncated
quotient) and a coordinate matrix with one output row per input row. -/
theorem claim_C3 (ind : List (List Int)) (prev nw : List Int)
    (h : 2 ≤ nw.count (-1) ∨
      ((-1 : Int) ∈ nw ∧ ¬ division_total_ele nw ∣ total_ele prev)) :
    ∃ rows, sparse_reshape_run ind prev nw
        = Except.ok (rows, out_new_shape prev nw) ∧
      rows.length = ind.length := by
  refine ⟨(gen_ir ind prev nw).1, ?_, gen_ir_fst_length ind prev nw⟩
  unfold sparse_reshape_run
  exact congrArg Except.ok (Prod.ext rfl (gen_ir_snd ind prev nw))

/-- Witness for the amended C3 at the two-sentinel input of the spec error
scenario. -/
theorem claim_C3_witness :
    ∃ rows, sparse_reshape_run [[0, 0, 0]] [2, 3, 4] [5, -1, -1]
        = Except.ok (rows, out_new_shape [2, 3, 4] [5, -1, -1]) ∧
      rows.length = ([[0, 0, 0]] : List (List Int)).length :=
  claim_C3 [[0, 0, 0]] [2, 3, 4] [5, -1, -1] (Or.inl (by decide))

/-- Identity transcoding in the exact model: with a positive shape and
in-bounds rows, flattening and unflattening against the same stride table
returns every row unchanged. -/
theorem transcode_self_id (prev : List Int) (ind : List (List Int))
    (hp : ∀ d ∈ prev, 1 ≤ d)
    (hrows : ∀ r ∈ ind, in_bounds prev r = true) :
    transcode prev prev ind = ind := by
  simp only [transcode]
  conv_rhs => rw [← List.map_id ind]
  refine List.map_congr_left fun r hr => ?_
  exact unflatten_flattened hp (hrows r hr)

/-- Round trip in the exact model: for compatible positive shapes with equal
total element counts and any in-bounds coordinate matrix, reshaping from
prev_shape to new_shape and back to prev_shape reproduces the matrix. -/
theorem gen_ir_roundtrip (ind : List (List Int)) (prev nw : List Int)
    (hp : ∀ d ∈ prev, 1 ≤ d) (hn : ∀ d ∈ nw, 1 ≤ d)
    (hprev : prev ≠ []) (hnw : nw ≠ [])
    (htot : total_ele nw = total_ele prev)
    (hrows : ∀ r ∈ ind, in_bounds prev r = true) :
    (gen_ir (gen_ir ind prev nw).1 nw prev).1 = ind := by
  have hnm : (-1 : Int) ∉ nw := fun h => by have := hn _ h; omega
  have hpm : (-1 : Int) ∉ prev := fun h => by have := hp _ h; omega
  have h1 : out_new_shape prev nw = nw := out_new_shape_of_not_mem hnm
  have h2 : out_new_shape nw prev = prev := out_new_shape_of_not_mem hpm
  by_cases heq : prev = nw
  · subst heq
    have hinner : (gen_ir ind prev prev).1 = ind := by
      rw [gen_ir_eq, h1, if_pos rfl]
    rw [hinner, gen_ir_eq, h2, if_pos rfl]
  · have hinner : (gen_ir ind prev nw).1 = transcode prev nw ind := by
      rw [gen_ir_eq, h1, if_neg heq]
    rw [hinner, gen_ir_eq, h2, if_neg (fun h : nw = prev => heq h.symm)]
    simp only [transcode, List.map_map]
    conv_rhs => rw [← List.map_id ind]
    refine List.map_congr_left fun r hr => ?_
    simp only [Function.comp_apply, id_eq]
    rw [flattened_unflatten nw hn hnw, unflatten_flattened hp (hrows r hr)]

/-- The known product of a shape vector without sentinels is its total
element count. -/
theorem division_total_ele_of_not_mem {l : List Int} (h : (-1 : Int) ∉ l) :
    division_total_ele l = total_ele l := by
  unfold division_total_ele total_ele
  rw [filter_of_not_mem h]

/-- Unflattening an in-range offset against the stride table of a positive
shape produces an in-bounds coordinate row. -/
theorem unflatten_in_bounds (s : List Int) (hs : ∀ d ∈ s, 1 ≤ d) :
    ∀ o : Int, 0 ≤ o → o < total_ele s →
      in_bounds s (unflatten_row (multipliers s) o) = true := by
  induction s with
  | nil =>
    intro o ho0 holt
    simp [multipliers, unflatten_row, in_bounds]
  | cons a s ih =>
    intro o ho0 holt
    have hs' : ∀ d ∈ s, 1 ≤ d := fun d hd => hs d (List.mem_cons_of_mem _ hd)
    have hP : 0 < s.prod := prod_pos_of_one_le hs'
    have hfd : Int.fdiv o s.prod = o / s.prod := Int.fdiv_eq_ediv o hP.le
    have hfm : Int.fmod o s.prod = o % s.prod := Int.fmod_eq_emod o hP.le
    have hq0 : 0 ≤ o / s.prod := Int.ediv_nonneg ho0 hP.le
    have hqa : o / s.prod < a := by
      rw [Int.ediv_lt_iff_lt_mul hP]
      have ht : total_ele (a :: s) = a * s.prod := by
        unfold total_ele
        rw [List.prod_cons]
      rw [← ht]
      exact holt
    have hm0 : 0 ≤ o % s.prod := Int.emod_nonneg o (ne_of_gt hP)
    have hmP : o % s.prod < s.prod := Int.emod_lt_of_pos o hP
    show in_bounds (a :: s)
        (Int.fdiv o s.prod :: unflatten_row (multipliers s) (Int.fmod o s.prod)) = true
    simp only [in_bounds, Bool.and_eq_true, decide_eq_true_eq]
    refine ⟨⟨by rw [hfd]; exact hq0, by rw [hfd]; exact hqa⟩, ?_⟩
    rw [hfm]
    exact ih hs' _ hm0 hmP

/-- C7 counterexample: on the docstring input as it stands in this source
(prev_shape [2, 3, 4], new_shape [9, -1]) the kernel resolves the sentinel
to tdiv(24, 9) = 2 and transcodes accordingly, so it returns
([[0,0],[0,1],[2,0],[6,0],[11,1]], [9,2]) and not the documented
([[0,0],[0,1],[1,2],[4,2],[8,1]], [9,4]). -/
theorem claim_C7_counterexample :
    gen_ir [[0, 0, 0], [0, 0, 1], [0, 1, 0], [1, 0, 0], [1, 2, 3]] [2, 3, 4] [9, -1]
        = ([[0, 0], [0, 1], [2, 0], [6, 0], [11, 1]], [9, 2]) ∧
    gen_ir [[0, 0, 0], [0, 0, 1], [0, 1, 0], [1, 0, 0], [1, 2, 3]] [2, 3, 4] [9, -1]
        ≠ ([[0, 0], [0, 1], [1, 2], [4, 2], [8, 1]], [9, 4]) := by
  constructor
  · decide
  · decide

/-- C7 amended: with prev_shape [2, 3, 6] (the value for which the
documented scenario is arithmetically consistent, 2*3*6 = 36 = 9*4), the
kernel returns exactly the documented resolved shape and coordinates. -/
theorem claim_C7 :
    gen_ir [[0, 0, 0], [0, 0, 1], [0, 1, 0], [1, 0, 0], [1, 2, 3]] [2, 3, 6] [9, -1]
      = ([[0, 0], [0, 1], [1, 2], [4, 2], [8, 1]], [9, 4]) := by decide

/-- C8: with zero coordinate rows the kernel writes a coordinate matrix with
zero rows, and the resolved shape it writes is the same shape it writes for
any other coordinate matrix (sentinel substituted, other entries copied). -/
theorem claim_C8 (ind : List (List Int)) (prev nw : List Int) :
    gen_ir [] prev nw = ([], out_new_shape prev nw) ∧
    (gen_ir ind prev nw).2 = (gen_ir [] prev nw).2 ∧
    (gen_ir ind prev nw).2 = out_new_shape prev nw := by
  refine ⟨?_, ?_, gen_ir_snd ind prev nw⟩
  · rw [gen_ir_eq]
    split <;> simp [transcode]
  · rw [gen_ir_snd, gen_ir_snd]

/-- C9: shape resolution tests entries by exact equality with -1: a -1
entry becomes tdiv(total, known), any other entry, including 0 or -2, is
copied verbatim and multiplied into the known product, with no error; at
prev_shape [2, 3], new_shape [-2, -1] the kernel happily resolves to
[-2, -3] (known product -2, tdiv(6, -2) = -3) and completes. -/
theorem claim_C9 (prev nw : List Int) (i : Nat) (hi : i < nw.length) :
    (nw.getD i 0 ≠ -1 → (out_new_shape prev nw).getD i 0 = nw.getD i 0) ∧
    (nw.getD i 0 = -1 → (out_new_shape prev nw).getD i 0
        = Int.tdiv (total_ele prev) (division_total_ele nw)) ∧
    division_total_ele [-2, -1] = -2 ∧
    sparse_reshape_run [[0, 0]] [2, 3] [-2, -1] = Except.ok ([[0, 0]], [-2, -3]) := by
  refine ⟨?_, ?_, by decide, ?_⟩
  · intro h
    unfold out_new_shape
    rw [getD_map_lt _ _ _ hi, if_neg h]
  · intro h
    unfold out_new_shape
    rw [getD_map_lt _ _ _ hi, if_pos h]
  · unfold sparse_reshape_run
    exact congrArg Except.ok (by decide)

/-- Witness for C9 at position 0 of new_shape [-2, -1]: the entry -2 is not
the sentinel and is copied verbatim. -/
theorem claim_C9_witness :
    ((([-2, -1] : List Int).getD 0 0 ≠ -1 →
      (out_new_shape [2, 3] [-2, -1]).getD 0 0 = ([-2, -1] : List Int).getD 0 0) ∧
    (([-2, -1] : List Int).getD 0 0 = -1 →
      (out_new_shape [2, 3] [-2, -1]).getD 0 0
        = Int.tdiv (total_ele [2, 3]) (division_total_ele [-2, -1])) ∧
    division_total_ele [-2, -1] = -2 ∧
    sparse_reshape_run [[0, 0]] [2, 3] [-2, -1] = Except.ok ([[0, 0]], [-2, -3])) :=
  claim_C9 [2, 3] [-2, -1] 0 (by decide)

/-- C10: the kernel never checks coordinates against prev_shape: whenever
the equality shortcut fires the rows are copied verbatim even if they are
out of range, and on the general path every row is transcoded through its
linear offset without any error; concretely the out-of-range row [5, -3]
is copied unchanged by the shortcut, and on the general path the row
[5, 1] under shape [2, 2] is transcoded to the offset 11, which exceeds the
target shape [4] and is emitted as the out-of-range coordinate [11]. -/
theorem claim_C10 (ind : List (List Int)) (prev nw : List Int)
    (h : prev = out_new_shape prev nw) :
    (gen_ir ind prev nw).1 = ind ∧
    sparse_reshape_run [[5, -3]] [2, 2] [2, 2] = Except.ok ([[5, -3]], [2, 2]) ∧
    sparse_reshape_run [[5, 1]] [2, 2] [4] = Except.ok ([[11]], [4]) := by
  refine ⟨?_, ?_, ?_⟩
  · rw [gen_ir_eq, if_pos h]
  · unfold sparse_reshape_run
    exact congrArg Except.ok (by decide)
  · unfold sparse_reshape_run
    exact congrArg Except.ok (by decide)

/-- Witness for C10: an out-of-range row passed through an identity reshape
with an inferred dimension, copied verbatim by the shortcut. -/
theorem claim_C10_witness :
    ((gen_ir [[7, -9]] [3, 3] [3, -1]).1 = [[7, -9]] ∧
    sparse_reshape_run [[5, -3]] [2, 2] [2, 2] = Except.ok ([[5, -3]], [2, 2]) ∧
    sparse_reshape_run [[5, 1]] [2, 2] [4] = Except.ok ([[11]], [4])) :=
  claim_C10 [[7, -9]] [3, 3] [3, -1] (by decide)

/-! ### Facts about signed machine-width wrapping -/

theorem wrapI_eq_self {w : Nat} {x : Int} (hw : 1 ≤ w)
    (hlo : -(2 ^ (w - 1) : Int) ≤ x) (hhi : x < (2 ^ (w - 1) : Int)) :
    wrapI w x = x := by
  unfold wrapI
  have hpow : (2 : Int) ^ w = 2 ^ (w - 1) * 2 := by
    rw [← pow_succ]
    congr 1
    omega
  have h0 : (0 : Int) ≤ x + 2 ^ (w - 1) := by linarith
  have h1 : x + 2 ^ (w - 1) < 2 ^ w := by rw [hpow]; linarith
  rw [Int.emod_eq_of_lt h0 h1]
  ring

theorem wrapI_emod (w : Nat) (x : Int) :
    wrapI w x % 2 ^ w = x % 2 ^ w := by
  unfold wrapI
  rw [Int.sub_emod, Int.emod_emod_of_dvd _ dvd_rfl, ← Int.sub_emod,
    add_sub_cancel_right]

theorem wrapI_congr {w : Nat} {x y : Int}
    (h : x % 2 ^ w = y % 2 ^ w) : wrapI w x = wrapI w y := by
  unfold wrapI
  congr 1
  rw [Int.add_emod, h, ← Int.add_emod]

theorem wrapI_idem (w : Nat) (x : Int) : wrapI w (wrapI w x) = wrapI w x :=
  wrapI_congr (wrapI_emod w x)

theorem wrapI_add_left (w : Nat) (x y : Int) :
    wrapI w (wrapI w x + y) = wrapI w (x + y) :=
  wrapI_congr (by rw [Int.add_emod, wrapI_emod, ← Int.add_emod])

theorem wrapI_add_right (w : Nat) (x y : Int) :
    wrapI w (x + wrapI w y) = wrapI w (x + y) :=
  wrapI_congr (by rw [Int.add_emod, wrapI_emod, ← Int.add_emod])

theorem wrapI_mul_left (w : Nat) (x y : Int) :
    wrapI w (wrapI w x * y) = wrapI w (x * y) :=
  wrapI_congr (by rw [Int.mul_emod, wrapI_emod, ← Int.mul_emod])

theorem wrapI_mul_right (w : Nat) (x y : Int) :
    wrapI w (x * wrapI w y) = wrapI w (x * y) :=
  wrapI_congr (by rw [Int.mul_emod, wrapI_emod, ← Int.mul_emod])

theorem map_wrapI_id {w : Nat} (hw : 1 ≤ w) {l : List Int}
    (h : ∀ m ∈ l, 1 ≤ m ∧ m < 2 ^ (w - 1)) : l.map (wrapI w) = l := by
  conv_rhs => rw [← List.map_id l]
  refine List.map_congr_left fun m hm => ?_
  obtain ⟨h1, h2⟩ := h m hm
  have hpos : (0 : Int) < 2 ^ (w - 1) := by positivity
  simpa using wrapI_eq_self hw (by linarith) h2

/-! ### The machine-width functions compute wrapped exact values -/

theorem total_eleW_foldl (w : Nat) (l : List Int) :
    ∀ a : Int, wrapI w a = a →
      l.foldl (fun x b => wrapI w (x * b)) a = wrapI w (a * l.prod) := by
  induction l with
  | nil =>
    intro a ha
    rw [List.foldl_nil, List.prod_nil, mul_one]
    exact ha.symm
  | cons b l ih =>
    intro a ha
    rw [List.foldl_cons, List.prod_cons, ih _ (wrapI_idem w _), wrapI_mul_left,
      mul_assoc]

theorem total_eleW_eq (w : Nat) (l : List Int) (hw1 : wrapI w 1 = 1) :
    total_eleW w l = wrapI w (total_ele l) := by
  unfold total_eleW total_ele
  rw [total_eleW_foldl w l 1 hw1, one_mul]

theorem division_total_eleW_foldl (w : Nat) (l : List Int) :
    ∀ a : Int, wrapI w a = a →
      l.foldl (fun x b => if b = -1 then x else wrapI w (x * b)) a
        = wrapI w (a * (l.filter (fun d => d != -1)).prod) := by
  induction l with
  | nil =>
    intro a ha
    rw [List.foldl_nil, List.filter_nil, List.prod_nil, mul_one]
    exact ha.symm
  | cons b l ih =>
    intro a ha
    by_cases hb : b = -1
    · subst hb
      rw [List.foldl_cons, if_pos rfl, List.filter_cons]
      simp only [show ((-1 : Int) != -1) = false from by decide, Bool.false_eq_true,
        if_false]
      exact ih a ha
    · rw [List.foldl_cons, if_neg hb, List.filter_cons]
      simp only [bne_iff_ne, ne_eq, hb, not_false_eq_true, if_true]
      rw [List.prod_cons, ih _ (wrapI_idem w _), wrapI_mul_left, mul_assoc]

theorem division_total_eleW_eq (w : Nat) (l : List Int) (hw1 : wrapI w 1 = 1) :
    division_total_eleW w l = wrapI w (division_total_ele l) := by
  unfold division_total_eleW division_total_ele
  rw [division_total_eleW_foldl w l 1 hw1, one_mul]

theorem multipliersW_eq (w : Nat) (hw1 : wrapI w 1 = 1) :
    ∀ s : List Int, multipliersW w s = (multipliers s).map (wrapI w) := by
  intro s
  induction s with
  | nil => rfl
  | cons a s ih =>
    cases s with
    | nil =>
      simp only [multipliersW, multipliers, List.prod_nil, List.map_cons,
        List.map_nil, hw1]
    | cons b s' =>
      show wrapI w (b * (multipliersW w (b :: s')).headI) :: multipliersW w (b :: s')
          = wrapI w ((b :: s').prod) :: (multipliers (b :: s')).map (wrapI w)
      rw [ih]
      have hhead : ((multipliers (b :: s')).map (wrapI w)).headI = wrapI w s'.prod := rfl
      rw [hhead, wrapI_mul_right, List.prod_cons]

theorem flattened_indexW_foldl (w : Nat) (l : List (Int × Int)) :
    ∀ a : Int, wrapI w a = a →
      l.foldl (fun acc p => wrapI w (acc + wrapI w (p.1 * p.2))) a
        = wrapI w (a + l.foldl (fun acc p => acc + p.1 * p.2) 0) := by
  induction l with
  | nil =>
    intro a ha
    rw [List.foldl_nil, List.foldl_nil, add_zero]
    exact ha.symm
  | cons p l ih =>
    intro a ha
    rw [List.foldl_cons, List.foldl_cons, ih _ (wrapI_idem w _),
      flattened_foldl_init l (0 + p.1 * p.2), wrapI_add_left,
      (by ring :
        a + wrapI w (p.1 * p.2) + l.foldl (fun acc q => acc + q.1 * q.2) 0
          = a + l.foldl (fun acc q => acc + q.1 * q.2) 0 + wrapI w (p.1 * p.2)),
      wrapI_add_right]
    congr 1
    ring

theorem flattened_indexW_eq (w : Nat) (hw : 1 ≤ w) (row mult : List Int) :
    flattened_indexW w row mult = wrapI w (flattened_index row mult) := by
  have hpos : (0 : Int) < 2 ^ (w - 1) := by positivity
  have hw0 : wrapI w 0 = 0 := wrapI_eq_self hw (by linarith) hpos
  unfold flattened_indexW flattened_index
  rw [flattened_indexW_foldl w _ 0 hw0, zero_add]

theorem unflatten_rowW_eq (w wOut : Nat) (hw : 1 ≤ w) (hwo : 1 ≤ wOut) :
    ∀ (divs : List Int) (o : Int),
      (∀ d ∈ divs, 1 ≤ d ∧ d ≤ 2 ^ (w - 1)) →
      0 ≤ o → o < 2 ^ (w - 1) → o < 2 ^ (wOut - 1) →
      unflatten_rowW w wOut divs o = unflatten_row divs o := by
  intro divs
  induction divs with
  | nil => intro o _ _ _ _; rfl
  | cons d ds ih =>
    intro o hd ho0 how howo
    obtain ⟨hd1, hd2⟩ := hd d (List.mem_cons_self _ _)
    have hds : ∀ x ∈ ds, 1 ≤ x ∧ x ≤ 2 ^ (w - 1) :=
      fun x hx => hd x (List.mem_cons_of_mem _ hx)
    have hdpos : (0 : Int) < d := by omega
    have hwpos : (0 : Int) < 2 ^ (w - 1) := by positivity
    have hwopos : (0 : Int) < 2 ^ (wOut - 1) := by positivity
    have hfd : Int.fdiv o d = o / d := Int.fdiv_eq_ediv o hdpos.le
    have hfm : Int.fmod o d = o % d := Int.fmod_eq_emod o hdpos.le
    have hq0 : 0 ≤ o / d := Int.ediv_nonneg ho0 hdpos.le
    have hqle : o / d ≤ o := Int.ediv_le_self d ho0
    have hm0 : 0 ≤ o % d := Int.emod_nonneg o (ne_of_gt hdpos)
    have hmlt : o % d < d := Int.emod_lt_of_pos o hdpos
    have hmle : o % d ≤ o := by
      have h := Int.emod_add_ediv o d
      nlinarith
    have hwrapq : wrapI wOut (Int.fdiv o d) = Int.fdiv o d := by
      rw [hfd]
      exact wrapI_eq_self hwo (by linarith) (by linarith)
    have hwrapm : wrapI w (Int.fmod o d) = Int.fmod o d := by
      rw [hfm]
      exact wrapI_eq_self hw (by linarith) (by linarith)
    show wrapI wOut (Int.fdiv o d)
          :: unflatten_rowW w wOut ds (wrapI w (Int.fmod o d))
        = Int.fdiv o d :: unflatten_row ds (Int.fmod o d)
    rw [hwrapq, hwrapm,
      ih (Int.fmod o d) hds (hfm ▸ hm0) (by rw [hfm]; linarith) (by rw [hfm]; linarith)]

theorem out_new_shapeW_eq (w : Nat) (hw : 1 ≤ w) (prev nw : List Int)
    (ht1 : 1 ≤ total_ele prev) (ht2 : total_ele prev < 2 ^ (w - 1))
    (hk1 : 1 ≤ division_total_ele nw) (hk2 : division_total_ele nw < 2 ^ (w - 1)) :
    out_new_shapeW w prev nw = out_new_shape prev nw := by
  have hpos : (0 : Int) < 2 ^ (w - 1) := by positivity
  have hw1 : wrapI w 1 = 1 := wrapI_eq_self hw (by linarith) (by linarith)
  have htW : total_eleW w prev = total_ele prev := by
    rw [total_eleW_eq w prev hw1]
    exact wrapI_eq_self hw (by linarith) ht2
  have hkW : division_total_eleW w nw = division_total_ele nw := by
    rw [division_total_eleW_eq w nw hw1]
    exact wrapI_eq_self hw (by linarith) hk2
  unfold out_new_shapeW out_new_shape
  refine List.map_congr_left fun d hd => ?_
  by_cases h : d = -1
  · rw [if_pos h, if_pos h, htW, hkW]
    have htd : Int.tdiv (total_ele prev) (division_total_ele nw)
        = total_ele prev / division_total_ele nw :=
      Int.tdiv_eq_ediv (by linarith) (by linarith)
    have hq0 : 0 ≤ total_ele prev / division_total_ele nw :=
      Int.ediv_nonneg (by linarith) (by linarith)
    have hqle : total_ele prev / division_total_ele nw ≤ total_ele prev :=
      Int.ediv_le_self _ (by linarith)
    rw [htd]
    exact wrapI_eq_self hw (by linarith) (by linarith)
  · rw [if_neg h, if_neg h]

theorem gen_irW_eq (w wOut : Nat) (ind : List (List Int)) (prev nw : List Int) :
    gen_irW w wOut ind prev nw =
      if prev = out_new_shapeW w prev nw
      then (ind, out_new_shapeW w prev nw)
      else
        (transcodeW w wOut prev (out_new_shapeW w prev nw) ind,
         out_new_shapeW w prev nw) := rfl

theorem gen_irW_snd (w wOut : Nat) (ind : List (List Int)) (prev nw : List Int) :
    (gen_irW w wOut ind prev nw).2 = out_new_shapeW w prev nw := by
  rw [gen_irW_eq]
  split <;> rfl

theorem transcodeW_eq_transcode (w wOut : Nat) (prev res : List Int)
    (ind : List (List Int)) (hw : 1 ≤ w) (hwo : 1 ≤ wOut)
    (hp : ∀ d ∈ prev, 1 ≤ d) (hres : ∀ d ∈ res, 1 ≤ d)
    (hrows : ∀ r ∈ ind, in_bounds prev r = true)
    (h1 : total_ele prev < 2 ^ (w - 1))
    (h2 : total_ele res < 2 ^ (w - 1))
    (h4 : total_ele prev ≤ 2 ^ (wOut - 1)) :
    transcodeW w wOut prev res ind = transcode prev res ind := by
  have hpos : (0 : Int) < 2 ^ (w - 1) := by positivity
  have ht0 : 0 < total_ele prev := prod_pos_of_one_le hp
  have hw1 : wrapI w 1 = 1 := wrapI_eq_self hw (by linarith) (by linarith)
  have hmp : multipliersW w prev = multipliers prev := by
    rw [multipliersW_eq w hw1 prev]
    refine map_wrapI_id hw fun m hm => ?_
    obtain ⟨hma, hmb⟩ := multipliers_mem_bounds hp m hm
    exact ⟨hma, by linarith⟩
  have hmr : multipliersW w res = multipliers res := by
    rw [multipliersW_eq w hw1 _]
    refine map_wrapI_id hw fun m hm => ?_
    obtain ⟨hma, hmb⟩ := multipliers_mem_bounds hres m hm
    exact ⟨hma, by linarith⟩
  unfold transcodeW transcode
  refine List.map_congr_left fun r hr2 => ?_
  obtain ⟨hf0, hf1⟩ := flattened_index_bounds hp (hrows r hr2)
  have hfW : flattened_indexW w r (multipliersW w prev)
      = flattened_index r (multipliers prev) := by
    rw [hmp, flattened_indexW_eq w hw]
    exact wrapI_eq_self hw (by linarith) (by linarith)
  rw [hmr, hfW]
  refine unflatten_rowW_eq w wOut hw hwo _ _ ?_ hf0 (by linarith) (by linarith)
  intro dd hdd
  obtain ⟨hda, hdb⟩ := multipliers_mem_bounds hres dd hdd
  exact ⟨hda, by linarith⟩

theorem gen_irW_eq_gen_ir (w wOut : Nat) (ind : List (List Int)) (prev nw : List Int)
    (hw : 1 ≤ w) (hwo : 1 ≤ wOut)
    (hp : ∀ d ∈ prev, 1 ≤ d)
    (hk1 : 1 ≤ division_total_ele nw)
    (hr : ∀ d ∈ out_new_shape prev nw, 1 ≤ d)
    (hrows : ∀ r ∈ ind, in_bounds prev r = true)
    (h1 : total_ele prev < 2 ^ (w - 1))
    (h2 : total_ele (out_new_shape prev nw) < 2 ^ (w - 1))
    (h3 : division_total_ele nw < 2 ^ (w - 1))
    (h4 : total_ele prev ≤ 2 ^ (wOut - 1)) :
    gen_irW w wOut ind prev nw = gen_ir ind prev nw := by
  have ht0 : 0 < total_ele prev := prod_pos_of_one_le hp
  have ht1 : 1 ≤ total_ele prev := by omega
  have hout := out_new_shapeW_eq w hw prev nw ht1 h1 hk1 h3
  rw [gen_irW_eq, hout, gen_ir_eq]
  by_cases hcond : prev = out_new_shape prev nw
  · rw [if_pos hcond, if_pos hcond]
  · rw [if_neg hcond, if_neg hcond,
      transcodeW_eq_transcode w wOut prev _ ind hw hwo hp hr hrows h1 h2 h4]

/-! ### Claims about the machine-width model -/

/-- C1: order preservation. Under the preconditions of the spec (positive
prev_shape, at most one sentinel, positive non-sentinel entries,
divisibility when a sentinel is present, in-bounds coordinate rows, and no
overflow of the intermediate width w nor of the coordinate output width
wOut), every output row of the kernel has the same row-major linear offset
under the resolved shape as the corresponding input row has under
prev_shape. -/
theorem claim_C1 (w wOut : Nat) (ind : List (List Int)) (prev nw : List Int)
    (hw : 1 ≤ w) (hwo : 1 ≤ wOut)
    (hnw : nw ≠ [])
    (hp : ∀ d ∈ prev, 1 ≤ d)
    (hcnt : nw.count (-1) ≤ 1)
    (hpos : ∀ d ∈ nw, d = -1 ∨ 1 ≤ d)
    (hdvd : (-1 : Int) ∈ nw → division_total_ele nw ∣ total_ele prev)
    (hrows : ∀ r ∈ ind, in_bounds prev r = true)
    (h1 : total_ele prev < 2 ^ (w - 1))
    (h2 : total_ele (out_new_shape prev nw) < 2 ^ (w - 1))
    (h4 : total_ele prev ≤ 2 ^ (wOut - 1)) :
    List.Forall₂ (fun rIn rOut =>
        flattened_index rIn (multipliers prev)
          = flattened_index rOut (multipliers (out_new_shape prev nw)))
      ind (gen_irW w wOut ind prev nw).1 := by
  have ht : 0 < total_ele prev := prod_pos_of_one_le hp
  have hk : 0 < division_total_ele nw := division_total_ele_pos hpos
  have hr : ∀ d ∈ out_new_shape prev nw, 1 ≤ d := out_new_shape_pos hp hpos hdvd
  have h3 : division_total_ele nw < 2 ^ (w - 1) := by
    by_cases hmem : (-1 : Int) ∈ nw
    · have hle := Int.le_of_dvd ht (hdvd hmem)
      linarith
    · have heq : out_new_shape prev nw = nw := out_new_shape_of_not_mem hmem
      have hkt : division_total_ele nw = total_ele nw := by
        unfold division_total_ele total_ele
        rw [filter_of_not_mem hmem]
      rw [heq] at h2
      rw [hkt]
      exact h2
  rw [gen_irW_eq_gen_ir w wOut ind prev nw hw hwo hp (by omega) hr hrows h1 h2 h3 h4]
  rw [gen_ir_eq]
  by_cases hcond : prev = out_new_shape prev nw
  · rw [if_pos hcond]
    exact List.forall₂_same.mpr fun r hrr => by rw [← hcond]
  · rw [if_neg hcond]
    show List.Forall₂ _ ind (transcode prev (out_new_shape prev nw) ind)
    unfold transcode
    rw [List.forall₂_map_right_iff]
    refine List.forall₂_same.mpr fun r hrr => ?_
    have hne : out_new_shape prev nw ≠ [] :=
      fun hnil => hnw (List.map_eq_nil_iff.mp hnil)
    exact (flattened_unflatten (out_new_shape prev nw) hr hne _).symm

/-- Witness for C1 at the consistent docstring scenario, machine width 32. -/
theorem claim_C1_witness :
    List.Forall₂ (fun rIn rOut =>
        flattened_index rIn (multipliers [2, 3, 6])
          = flattened_index rOut (multipliers (out_new_shape [2, 3, 6] [9, -1])))
      [[0, 0, 0], [0, 0, 1], [0, 1, 0], [1, 0, 0], [1, 2, 3]]
      (gen_irW 32 32 [[0, 0, 0], [0, 0, 1], [0, 1, 0], [1, 0, 0], [1, 2, 3]]
        [2, 3, 6] [9, -1]).1 :=
  claim_C1 32 32 [[0, 0, 0], [0, 0, 1], [0, 1, 0], [1, 0, 0], [1, 2, 3]]
    [2, 3, 6] [9, -1] (by decide) (by decide) (by decide) (by decide) (by decide)
    (by decide) (by decide) (by decide) (by decide) (by decide) (by decide)

/-- C5 counterexample: the intermediate width is the declared dtype of
new_shape, not a width chosen to fit product(prev_shape). At width 32 with
prev_shape [46341, 46341] (product 2147488281, slightly above 2^31), one
sentinel and the in-bounds row [46340, 46340], the machine-width kernel
wraps the total and the row offset to negative values and its output
differs from the exact-width computation. -/
theorem claim_C5_counterexample :
    gen_irW 32 32 [[46340, 46340]] [46341, 46341] [-1]
        = ([[-2147479016]], [-2147479015]) ∧
    gen_ir [[46340, 46340]] [46341, 46341] [-1]
        = ([[2147488280]], [2147488281]) ∧
    gen_irW 32 32 [[46340, 46340]] [46341, 46341] [-1]
        ≠ gen_ir [[46340, 46340]] [46341, 46341] [-1] :=
  ⟨by decide, by decide, by decide⟩

/-- C5 amended: intermediate offsets and stride tables are computed in the
declared dtype width w of new_shape, independent of the coordinate storage
width wOut of sparse_indices, and each final coordinate is narrowed to
width wOut only after its division step; whenever product(prev_shape), the
resolved product and the known product fit in w bits and the coordinates
fit in wOut bits, the machine-width kernel agrees exactly with the
unbounded-width computation. -/
theorem claim_C5 (w wOut : Nat) (ind : List (List Int)) (prev nw : List Int)
    (hw : 1 ≤ w) (hwo : 1 ≤ wOut)
    (hp : ∀ d ∈ prev, 1 ≤ d)
    (hk1 : 1 ≤ division_total_ele nw)
    (hr : ∀ d ∈ out_new_shape prev nw, 1 ≤ d)
    (hrows : ∀ r ∈ ind, in_bounds prev r = true)
    (h1 : total_ele prev < 2 ^ (w - 1))
    (h2 : total_ele (out_new_shape prev nw) < 2 ^ (w - 1))
    (h3 : division_total_ele nw < 2 ^ (w - 1))
    (h4 : total_ele prev ≤ 2 ^ (wOut - 1)) :
    gen_irW w wOut ind prev nw = gen_ir ind prev nw :=
  gen_irW_eq_gen_ir w wOut ind prev nw hw hwo hp hk1 hr hrows h1 h2 h3 h4

/-- Witness for the amended C5: at width 32 the docstring scenario is
computed exactly. -/
theorem claim_C5_witness :
    gen_irW 32 32 [[0, 0, 0], [0, 0, 1], [0, 1, 0], [1, 0, 0], [1, 2, 3]]
        [2, 3, 6] [9, -1]
      = gen_ir [[0, 0, 0], [0, 0, 1], [0, 1, 0], [1, 0, 0], [1, 2, 3]]
        [2, 3, 6] [9, -1] :=
  claim_C5 32 32 [[0, 0, 0], [0, 0, 1], [0, 1, 0], [1, 0, 0], [1, 2, 3]]
    [2, 3, 6] [9, -1] (by decide) (by decide) (by decide) (by decide) (by decide)
    (by decide) (by decide) (by decide) (by decide) (by decide)

/-- C2 counterexample: shape resolution runs in the declared dtype of
new_shape. At width 32 with prev_shape [46341, 46341] (all entries
positive), new_shape [-1] (exactly one sentinel, known product 1 divides
P = 2147488281), the kernel writes the wrapped resolved shape
[-2147479015], not [P], and its product is not P. -/
theorem claim_C2_counterexample :
    (gen_irW 32 32 [] [46341, 46341] [-1]).2 = [-2147479015] ∧
    (gen_irW 32 32 [] [46341, 46341] [-1]).2 ≠ [total_ele [46341, 46341]] ∧
    total_ele (gen_irW 32 32 [] [46341, 46341] [-1]).2 ≠ total_ele [46341, 46341] :=
  ⟨by decide, by decide, by decide⟩

/-- C2 amended: under the stated preconditions (positive prev_shape entries,
positive non-sentinel entries, exactly one sentinel, the known product
dividing P) and additionally provided P fits the intermediate width w of
the dtype of new_shape, the resolved shape the kernel writes copies every
non-sentinel entry verbatim, puts the exact quotient at the sentinel
position (so known * entry = P) and has product P; without the width
proviso the sentinel entry is the wrapped quotient instead. -/
theorem claim_C2 (w wOut : Nat) (ind : List (List Int)) (prev nw : List Int)
    (i : Nat) (hw : 1 ≤ w)
    (hp : ∀ d ∈ prev, 1 ≤ d)
    (hpos : ∀ d ∈ nw, d = -1 ∨ 1 ≤ d)
    (hone : nw.count (-1) = 1)
    (hdvd : division_total_ele nw ∣ total_ele prev)
    (hi : i < nw.length)
    (h1 : total_ele prev < 2 ^ (w - 1)) :
    total_ele (gen_irW w wOut ind prev nw).2 = total_ele prev ∧
    (nw.getD i 0 = -1 →
      division_total_ele nw * (gen_irW w wOut ind prev nw).2.getD i 0
        = total_ele prev) ∧
    (nw.getD i 0 ≠ -1 →
      (gen_irW w wOut ind prev nw).2.getD i 0 = nw.getD i 0) := by
  have ht : 0 < total_ele prev := prod_pos_of_one_le hp
  have hk : 0 < division_total_ele nw := division_total_ele_pos hpos
  have h3 : division_total_ele nw < 2 ^ (w - 1) :=
    lt_of_le_of_lt (Int.le_of_dvd ht hdvd) h1
  have hsnd : (gen_irW w wOut ind prev nw).2 = out_new_shape prev nw := by
    rw [gen_irW_snd, out_new_shapeW_eq w hw prev nw (by omega) h1 (by omega) h3]
  rw [hsnd]
  refine ⟨out_new_shape_prod hp hone hdvd, ?_, ?_⟩
  · intro h
    obtain ⟨q, hq⟩ := hdvd
    unfold out_new_shape
    rw [getD_map_lt _ _ _ hi, if_pos h, hq,
      Int.mul_tdiv_cancel_left _ (ne_of_gt hk)]
  · intro h
    unfold out_new_shape
    rw [getD_map_lt _ _ _ hi, if_neg h]

/-- Witness for the amended C2 at the consistent docstring scenario,
machine width 32: new_shape [9, -1], sentinel at position 1. -/
theorem claim_C2_witness :
    total_ele (gen_irW 32 32 [[0, 0, 0]] [2, 3, 6] [9, -1]).2
        = total_ele [2, 3, 6] ∧
    (([9, -1] : List Int).getD 1 0 = -1 →
      division_total_ele [9, -1]
          * (gen_irW 32 32 [[0, 0, 0]] [2, 3, 6] [9, -1]).2.getD 1 0
        = total_ele [2, 3, 6]) ∧
    (([9, -1] : List Int).getD 1 0 ≠ -1 →
      (gen_irW 32 32 [[0, 0, 0]] [2, 3, 6] [9, -1]).2.getD 1 0
        = ([9, -1] : List Int).getD 1 0) :=
  claim_C2 32 32 [[0, 0, 0]] [2, 3, 6] [9, -1] 1
    (by decide) (by decide) (by decide) (by decide) (by decide) (by decide)
    (by decide)

/-- C4 counterexample: at width 32 on the identity shape [46341, 46341]
(resolved shape equal to prev_shape, so the shortcut fires) with the
in-bounds row [46340, 46340], the shortcut copies the input verbatim while
the general transcoder path wraps the row offset and would produce
[[-46341, 9265]], a different matrix, so the claimed shortcut/general-path
equivalence fails at the declared dtype width. -/
theorem claim_C4_counterexample :
    out_new_shapeW 32 [46341, 46341] [46341, 46341] = [46341, 46341] ∧
    in_bounds [46341, 46341] [46340, 46340] = true ∧
    (gen_irW 32 32 [[46340, 46340]] [46341, 46341] [46341, 46341]).1
        = [[46340, 46340]] ∧
    transcodeW 32 32 [46341, 46341] [46341, 46341] [[46340, 46340]]
        = [[-46341, 9265]] ∧
    ([[-46341, 9265]] : List (List Int)) ≠ [[46340, 46340]] :=
  ⟨by decide, by decide, by decide, by decide, by decide⟩

/-- C4 amended: when the resolved shape the kernel computes equals
prev_shape entrywise, the shortcut returns the input matrix, and provided
product(prev_shape) fits the intermediate width w and the coordinates fit
the output width wOut, the general transcoder path produces that same
matrix; without the width proviso the two paths can differ. -/
theorem claim_C4 (w wOut : Nat) (ind : List (List Int)) (prev nw : List Int)
    (hw : 1 ≤ w) (hwo : 1 ≤ wOut)
    (hp : ∀ d ∈ prev, 1 ≤ d)
    (hrows : ∀ r ∈ ind, in_bounds prev r = true)
    (heq : out_new_shapeW w prev nw = prev)
    (h1 : total_ele prev < 2 ^ (w - 1))
    (h4 : total_ele prev ≤ 2 ^ (wOut - 1)) :
    (gen_irW w wOut ind prev nw).1 = ind ∧
    transcodeW w wOut prev (out_new_shapeW w prev nw) ind = ind := by
  constructor
  · rw [gen_irW_eq, heq, if_pos rfl]
  · rw [heq,
      transcodeW_eq_transcode w wOut prev prev ind hw hwo hp hp hrows h1 h1 h4]
    exact transcode_self_id prev ind hp hrows

/-- Witness for the amended C4 at an identity reshape of one in-bounds row,
machine width 32. -/
theorem claim_C4_witness :
    (gen_irW 32 32 [[1, 2]] [2, 3] [2, 3]).1 = [[1, 2]] ∧
    transcodeW 32 32 [2, 3] (out_new_shapeW 32 [2, 3] [2, 3]) [[1, 2]]
        = [[1, 2]] :=
  claim_C4 32 32 [[1, 2]] [2, 3] [2, 3] (by decide) (by decide) (by decide)
    (by decide) (by decide) (by decide) (by decide)

/-- C6 counterexample: at width 32 the shapes [46341, 46341] and
[139023, 15447] are compatible (positive entries, both products
2147488281) and the row [46340, 46340] is in bounds, yet reshaping the row
to [139023, 15447] and back yields [[-46341, 9265]], not the original:
the round trip fails at the declared dtype width. -/
theorem claim_C6_counterexample :
    total_ele [139023, 15447] = total_ele [46341, 46341] ∧
    in_bounds [46341, 46341] [46340, 46340] = true ∧
    (gen_irW 32 32
        (gen_irW 32 32 [[46340, 46340]] [46341, 46341] [139023, 15447]).1
        [139023, 15447] [46341, 46341]).1 = [[-46341, 9265]] ∧
    (gen_irW 32 32
        (gen_irW 32 32 [[46340, 46340]] [46341, 46341] [139023, 15447]).1
        [139023, 15447] [46341, 46341]).1 ≠ [[46340, 46340]] :=
  ⟨by decide, by decide, by decide, by decide⟩

/-- C6 amended: for compatible positive shapes with equal total element
counts and any in-bounds coordinate matrix, and additionally provided the
common total element count fits the intermediate width w and the
coordinates fit the output width wOut, reshaping from prev_shape to
new_shape and then back to prev_shape reproduces the original matrix;
without the width proviso the round trip can fail. -/
theorem claim_C6 (w wOut : Nat) (ind : List (List Int)) (prev nw : List Int)
    (hw : 1 ≤ w) (hwo : 1 ≤ wOut)
    (hp : ∀ d ∈ prev, 1 ≤ d) (hn : ∀ d ∈ nw, 1 ≤ d)
    (hprev : prev ≠ []) (hnw : nw ≠ [])
    (htot : total_ele nw = total_ele prev)
    (hrows : ∀ r ∈ ind, in_bounds prev r = true)
    (h1 : total_ele prev < 2 ^ (w - 1))
    (h4 : total_ele prev ≤ 2 ^ (wOut - 1)) :
    (gen_irW w wOut (gen_irW w wOut ind prev nw).1 nw prev).1 = ind := by
  have hnm : (-1 : Int) ∉ nw := fun h => by have := hn _ h; omega
  have hpm : (-1 : Int) ∉ prev := fun h => by have := hp _ h; omega
  have h1out : out_new_shape prev nw = nw := out_new_shape_of_not_mem hnm
  have h2out : out_new_shape nw prev = prev := out_new_shape_of_not_mem hpm
  have hknw : division_total_ele nw = total_ele nw :=
    division_total_ele_of_not_mem hnm
  have hkpv : division_total_ele prev = total_ele prev :=
    division_total_ele_of_not_mem hpm
  have htp : 0 < total_ele prev := prod_pos_of_one_le hp
  have e1 : gen_irW w wOut ind prev nw = gen_ir ind prev nw := by
    refine gen_irW_eq_gen_ir w wOut ind prev nw hw hwo hp ?_ ?_ hrows h1 ?_ ?_ h4
    · rw [hknw, htot]
      omega
    · rw [h1out]
      exact hn
    · rw [h1out, htot]
      exact h1
    · rw [hknw, htot]
      exact h1
  have hrows1 : ∀ r ∈ (gen_ir ind prev nw).1, in_bounds nw r = true := by
    intro r hr
    rw [gen_ir_eq, h1out] at hr
    by_cases heq : prev = nw
    · rw [if_pos heq] at hr
      exact heq ▸ hrows r hr
    · rw [if_neg heq] at hr
      simp only [transcode, List.mem_map] at hr
      obtain ⟨r0, hr0, rfl⟩ := hr
      obtain ⟨hf0, hf1⟩ := flattened_index_bounds hp (hrows r0 hr0)
      refine unflatten_in_bounds nw hn _ hf0 ?_
      rw [htot]
      exact hf1
  have e2 : gen_irW w wOut (gen_ir ind prev nw).1 nw prev
      = gen_ir (gen_ir ind prev nw).1 nw prev := by
    refine gen_irW_eq_gen_ir w wOut _ nw prev hw hwo hn ?_ ?_ hrows1 ?_ ?_ ?_ ?_
    · rw [hkpv]
      omega
    · rw [h2out]
      exact hp
    · rw [htot]
      exact h1
    · rw [h2out]
      exact h1
    · rw [hkpv]
      exact h1
    · rw [htot]
      exact h4
  rw [e1, e2]
  exact gen_ir_roundtrip ind prev nw hp hn hprev hnw htot hrows

/-- Witness for the amended C6: a 2 x 3 to 3 x 2 reshape and back on one
row, machine width 32. -/
theorem claim_C6_witness :
    (gen_irW 32 32 (gen_irW 32 32 [[1, 2]] [2, 3] [3, 2]).1 [3, 2] [2, 3]).1
      = [[1, 2]] :=
  claim_C6 32 32 [[1, 2]] [2, 3] [3, 2] (by decide) (by decide) (by decide)
    (by decide) (by decide) (by decide) (by decide) (by decide) (by decide)
    (by decide)

end SparseReshape
